import Mathlib

/-!
Shallow embedding of the iLert Icinga plugin (`ilert-icinga.py`): the
disk-backed event queue (`persist_event`), the flush engine (`flush`),
the directory lock (`lock_and_flush`) and the XML encoding
(`create_xml`), together with theorems checking the specification's
claims about them.

Filesystem state is modelled as a list of directory entries; machine
concerns (actual I/O, the HTTPS transport, `fcntl`) appear as oracles:
per-file outcomes injected as functions, and failure-injection
parameters choosing which operation raises.
-/

namespace IlertPlugin

/- ### Outcome classification (lines 105-124 of `ilert-icinga.py`)

The send of one event either returns normally from `urlopen` (which for
`urllib` means a 2xx response), or raises `HTTPError` with a status
code, or raises `URLError` (network-level failure), or raises some
other unexpected exception. -/

inductive SendOutcome where
  | success : SendOutcome
  | httpError : Nat → SendOutcome
  | urlError : SendOutcome
  | otherException : SendOutcome
deriving DecidableEq

/-- Where the code reports the outcome of one event. -/
inductive LogSink where
  | info : LogSink
  | warn : LogSink
  | errorLog : LogSink
  | stderrStream : LogSink
deriving DecidableEq

/-- Per-event disposition: whether the event file is removed, and where
the outcome is reported. -/
structure Disposition where
  delete : Bool
  log : LogSink
deriving DecidableEq

/-- Mirrors the exception handlers of the send loop (lines 109-124):
`HTTPError` with code 429 is kept and logged as a warning; any other
code in 400-499 is removed and logged as a warning; any other
`HTTPError` code is kept and written to stderr; `URLError` and any
other exception are kept and logged as errors; a normal return removes
the file and logs at info. -/
def classify : SendOutcome → Disposition
  | .success => ⟨true, .info⟩
  | .httpError code =>
      if code = 429 then ⟨false, .warn⟩
      else if 400 ≤ code ∧ code ≤ 499 then ⟨true, .warn⟩
      else ⟨false, .stderrStream⟩
  | .urlError => ⟨false, .errorLog⟩
  | .otherException => ⟨false, .errorLog⟩

/-- The outcome classification table of spec §4.3, row by row, written
from the spec's words (for comparison with `classify`, which is written
from the code). -/
def specDisposition : SendOutcome → Disposition
  | .success => ⟨true, .info⟩
  | .httpError code =>
      if code = 429 then ⟨false, .warn⟩
      else if 400 ≤ code ∧ code ≤ 499 ∧ code ≠ 429 then ⟨true, .warn⟩
      else ⟨false, .stderrStream⟩
  | .urlError => ⟨false, .errorLog⟩
  | .otherException => ⟨false, .errorLog⟩

/- ### The event directory and `flush` (lines 86-124) -/

/-- One entry of the event directory: its filename, its filesystem
modification time, and its byte content. -/
structure DirEntry where
  name : String
  mtime : Nat
  content : String
deriving DecidableEq

/-- `x.endswith(".ilert")` (line 93); the code tests the joined path,
which has the same suffix as the bare filename. -/
def hasIlertSuffix (s : String) : Bool := (".ilert").toList.isSuffixOf s.toList

/-- Line 92-93: list the directory and keep the names ending in the
permanent suffix. -/
def ilertEvents (listing : List DirEntry) : List DirEntry :=
  listing.filter (fun e => hasIlertSuffix e.name)

instance dirEntryMtimeLeDec : DecidableRel (fun a b : DirEntry => a.mtime ≤ b.mtime) :=
  fun a b => Nat.decLe a.mtime b.mtime

instance dirEntryMtimeLeTotal : IsTotal DirEntry (fun a b : DirEntry => a.mtime ≤ b.mtime) :=
  ⟨fun a b => Nat.le_total a.mtime b.mtime⟩

instance dirEntryMtimeLeTrans : IsTrans DirEntry (fun a b : DirEntry => a.mtime ≤ b.mtime) :=
  ⟨fun _ _ _ h h2 => Nat.le_trans h h2⟩

/-- Line 94: `sorted(events, key=lambda x: os.path.getmtime(x))` —
ascending by modification time. -/
def sortByMtime (l : List DirEntry) : List DirEntry :=
  List.insertionSort (fun a b => a.mtime ≤ b.mtime) l

/-- What happened to one event of the batch: the read raised `IOError`
(lines 97-101), or the send completed with some outcome. -/
inductive EventResult where
  | readFailed : EventResult
  | sent : SendOutcome → EventResult
deriving DecidableEq

/-- Whether the loop body removes the event file for this result: a
skipped read never removes; a send removes according to `classify`. -/
def stepDeletes : EventResult → Bool
  | .readFailed => false
  | .sent o => (classify o).delete

/-- Oracle-driven result of processing one event file, keyed by its
name: `readFails` injects the `IOError` of lines 97-101, `send` gives
the transport outcome of lines 105-124. -/
def eventResultOf (readFails : String → Bool) (send : String → SendOutcome)
    (name : String) : EventResult :=
  if readFails name then .readFailed else .sent (send name)

/-- The processing trace of one flush pass: every selected event file in
sorted order, paired with what happened to it (the for-loop of lines
96-124). -/
def flushTrace (listing : List DirEntry) (readFails : String → Bool)
    (send : String → SendOutcome) : List (DirEntry × EventResult) :=
  (sortByMtime (ilertEvents listing)).map (fun e => (e, eventResultOf readFails send e.name))

/-- Names removed by `os.remove` during the pass (lines 114 and 123). -/
def deletedNames (listing : List DirEntry) (readFails : String → Bool)
    (send : String → SendOutcome) : List String :=
  ((flushTrace listing readFails send).filter (fun p => stepDeletes p.2)).map
    (fun p => p.1.name)

/-- The event directory after the pass: the original listing minus the
removed files. -/
def flushFinal (listing : List DirEntry) (readFails : String → Bool)
    (send : String → SendOutcome) : List DirEntry :=
  listing.filter (fun e => decide (e.name ∉ deletedNames listing readFails send))

/-- Result of one `flush` invocation: `aborted` when the `getmtime` sort
key of line 94 raises (a listed file vanished between `os.listdir` and
the sort) — an exception no handler catches — otherwise the trace and
the final directory state. -/
inductive FlushResult where
  | aborted : FlushResult
  | completed : List (DirEntry × EventResult) → List DirEntry → FlushResult
deriving DecidableEq

/-- The whole `flush` (lines 86-124). `vanished` marks files removed by
a racing process between the directory listing and the sort-key calls:
`os.path.getmtime` raises on them, outside every handler. -/
def flush (listing : List DirEntry) (vanished readFails : String → Bool)
    (send : String → SendOutcome) : FlushResult :=
  if (ilertEvents listing).any (fun e => vanished e.name) then .aborted
  else .completed (flushTrace listing readFails send)
        (flushFinal listing readFails send)

/- ### `persist_event` (lines 43-70) -/

/-- Failure injection for `persist_event`: no failure, the
write/flush/close of the temporary file raises (leaving it with
whatever bytes made it out), or `os.rename` raises. -/
inductive PersistFail where
  | noFailure : PersistFail
  | writeFails : List Char → PersistFail
  | renameFails : PersistFail
deriving DecidableEq

/-- A flat directory as name-content pairs (persist never reads
mtimes). -/
abbrev FileMap := List (String × List Char)

def removeFile (fs : FileMap) (n : String) : FileMap :=
  fs.filter (fun p => decide (p.1 ≠ n))

def writeFile (fs : FileMap) (n : String) (c : List Char) : FileMap :=
  removeFile fs n ++ [(n, c)]

/-- Process state after `persist_event`: the directory, and the exit
status when the `except` branch of lines 68-70 called `exit(1)`. -/
structure ProcState where
  fs : FileMap
  exitCode : Option Nat
deriving DecidableEq

def tmpName (uid : String) : String := uid ++ (".tmp")

def eventName (uid : String) : String := uid ++ (".ilert")

/- ### `create_xml` (lines 127-138), via `xml.sax.saxutils` -/

def dqChar : Char := Char.ofNat 34
def sqChar : Char := Char.ofNat 39
def nlChar : Char := Char.ofNat 10
def crChar : Char := Char.ofNat 13
def tabChar : Char := Char.ofNat 9

/-- `xml.sax.saxutils.escape` replaces the ampersand first, then the
angle brackets; since no replacement string contains a character
replaced later, this equals a single character-wise pass. -/
def escapeChar (c : Char) : List Char :=
  if c = '&' then ("&amp;").toList
  else if c = '<' then ("&lt;").toList
  else if c = '>' then ("&gt;").toList
  else [c]

def escape (s : List Char) : List Char := s.flatMap escapeChar

/-- The per-character pass of `escape(data, entities)` as called inside
`quoteattr`: the three default entities plus newline, carriage return
and tab. -/
def escapeAttrChar (c : Char) : List Char :=
  if c = '&' then ("&amp;").toList
  else if c = '<' then ("&lt;").toList
  else if c = '>' then ("&gt;").toList
  else if c = nlChar then ("&#10;").toList
  else if c = crChar then ("&#13;").toList
  else if c = tabChar then ("&#9;").toList
  else [c]

/-- `data.replace(dq, "&quot;")`, character-wise. -/
def quotRepChar (c : Char) : List Char :=
  if c = dqChar then ("&quot;").toList else [c]

/-- The escape-then-replace-quotes pass of the both-quotes branch of
`quoteattr`, fused into one character-wise pass. -/
def escAttrQChar (c : Char) : List Char := (escapeAttrChar c).flatMap quotRepChar

/-- `xml.sax.saxutils.quoteattr`: escape, then pick the quote style from
the quotes present in the data. -/
def quoteattr (s : List Char) : List Char :=
  let d := s.flatMap escapeAttrChar
  if dqChar ∈ d then
    if sqChar ∈ d then
      dqChar :: d.flatMap quotRepChar ++ [dqChar]
    else
      sqChar :: d ++ [sqChar]
  else dqChar :: d ++ [dqChar]

def xmlHeader : List Char :=
  ("<?xml version=\"1.0\" encoding=\"UTF-8\" standalone=\"yes\"?>").toList

def eventOpenTag : List Char := ("<event><apiKey>").toList

def apiKeyCloseTag : List Char := ("</apiKey><payload>").toList

def entryOpenTag : List Char := ("<entry key=").toList

def entryCloseTag : List Char := ("</entry>").toList

def payloadCloseTag : List Char := ("</payload></event>").toList

/-- `"<entry key=%s>%s</entry>" % (quoteattr(entry), escape(payload[entry]))`
(line 133). -/
def encodeEntry (kv : List Char × List Char) : List Char :=
  entryOpenTag ++ quoteattr kv.1 ++ '>' :: escape kv.2 ++ entryCloseTag

/-- `create_xml` (lines 127-138). The payload dict is modelled as an
association list in iteration order. Note the api key is interpolated
raw, with no escaping. -/
def create_xml (apikey : List Char) (payload : List (List Char × List Char)) :
    List Char :=
  xmlHeader ++ eventOpenTag ++ apikey ++ apiKeyCloseTag
    ++ payload.flatMap encodeEntry ++ payloadCloseTag

/-- `persist_event` (lines 43-70): encode, write a `.tmp` file, rename
it to `.ilert`; any exception logs and calls `exit(1)`. -/
def persist_event (apikey : List Char) (payload : List (List Char × List Char))
    (uid : String) (fs : FileMap) : PersistFail → ProcState
  | .noFailure =>
      let doc := create_xml apikey payload
      let fs1 := writeFile fs (tmpName uid) doc
      ⟨writeFile (removeFile fs1 (tmpName uid)) (eventName uid) doc, none⟩
  | .writeFails truncatedContent =>
      ⟨writeFile fs (tmpName uid) truncatedContent, some 1⟩
  | .renameFails =>
      ⟨writeFile fs (tmpName uid) (create_xml apikey payload), some 1⟩

/- ### `lock_and_flush` (lines 73-83) -/

/-- State of the lock file descriptor: whether it is open and whether
the exclusive `flock` is held on it. -/
structure LockState where
  fileOpen : Bool
  lockHeld : Bool
deriving DecidableEq

/-- Which exit path the invocation takes: `open` raises before the
`try`; `flock` raises inside the `try`; `flush` raises inside the
`try`; or everything returns normally. -/
inductive LockPath where
  | openFails : LockPath
  | flockFails : LockPath
  | flushRaises : LockPath
  | completes : LockPath
deriving DecidableEq

/-- `lockfile.close()`: closing the descriptor also drops any advisory
`flock` held through it. -/
def closeLockFile (_ : LockState) : LockState := ⟨false, false⟩

/-- `try ... finally fin`: the finaliser runs whether or not the body
raised; the Bool records whether an exception is propagating. -/
def tryFinally (body : LockState → LockState × Bool) (fin : LockState → LockState)
    (s : LockState) : LockState × Bool :=
  let r := body s
  (fin r.1, r.2)

/-- The `try` body of lines 79-81: `flock` (acquiring the lock unless it
raises), then `flush` (which may raise). -/
def lockFlushBody (p : LockPath) (s : LockState) : LockState × Bool :=
  match p with
  | .flockFails => (s, true)
  | .flushRaises => ({ s with lockHeld := true }, true)
  | _ => ({ s with lockHeld := true }, false)

/-- `lock_and_flush` (lines 73-83), restricted to its locking effect:
the final descriptor state and whether an exception propagates out. -/
def lock_and_flush_locking : LockPath → LockState × Bool
  | .openFails => (⟨false, false⟩, true)
  | p => tryFinally (lockFlushBody p) closeLockFile ⟨true, false⟩

/- ### A decoder for the wire format produced by `create_xml` -/

/-- Consume an expected literal chunk. -/
def dropExact : List Char → List Char → Option (List Char)
  | [], s => some s
  | _ :: _, [] => none
  | p :: ps, c :: cs => if c = p then dropExact ps cs else none

/-- Split at the first occurrence of `stop`, leaving it in the
remainder. -/
def spanNe (stop : Char) : List Char → List Char × List Char
  | [] => ([], [])
  | c :: r =>
    if c = stop then ([], c :: r)
    else
      let p := spanNe stop r
      (c :: p.1, p.2)

/-- Content up to and excluding the first `q`, and the remainder after
it. -/
def splitAtChar (q : Char) : List Char → Option (List Char × List Char)
  | [] => none
  | c :: r =>
    if c = q then some ([], r)
    else (splitAtChar q r).map (fun p => (c :: p.1, p.2))

/-- Undo one XML character entity at the head, if present. -/
def unescAmp : List Char → Option (Char × List Char)
  | 'a' :: 'm' :: 'p' :: ';' :: r => some ('&', r)
  | 'l' :: 't' :: ';' :: r => some ('<', r)
  | 'g' :: 't' :: ';' :: r => some ('>', r)
  | 'q' :: 'u' :: 'o' :: 't' :: ';' :: r => some (Char.ofNat 34, r)
  | '#' :: '1' :: '0' :: ';' :: r => some (Char.ofNat 10, r)
  | '#' :: '1' :: '3' :: ';' :: r => some (Char.ofNat 13, r)
  | '#' :: '9' :: ';' :: r => some (Char.ofNat 9, r)
  | _ => none

/-- Fuel-driven entity decoder; one unit of fuel per produced
character, so the input length is always enough fuel. -/
def unescapeF : Nat → List Char → List Char
  | 0, _ => []
  | _, [] => []
  | fuel + 1, c :: rest =>
    if c = '&' then
      match unescAmp rest with
      | some (d, r) => d :: unescapeF fuel r
      | none => c :: unescapeF fuel rest
    else c :: unescapeF fuel rest

def unescape (s : List Char) : List Char := unescapeF s.length s

/-- Parse one reversed `<entry key=...>...</entry>` element off the
front of a reversed document tail: the closing tag, then the value (the
escaped value contains no angle bracket, so it ends at the first one),
the attribute close `>`, the quoted attribute (its content never
contains the delimiter), and the opening tag. The decoder works right
to left because everything to the right of the raw api key is rigid,
while the api key itself is arbitrary. -/
def parseBackOne (s : List Char) : Option ((List Char × List Char) × List Char) :=
  match dropExact entryCloseTag.reverse s with
  | none => none
  | some r1 =>
    let vr := spanNe '>' r1
    match vr.2 with
    | [] => none
    | gt :: r2 =>
      if gt = '>' then
        match r2 with
        | [] => none
        | q :: r3 =>
          if q = dqChar ∨ q = sqChar then
            match splitAtChar q r3 with
            | none => none
            | some (attrRev, r4) =>
              match dropExact entryOpenTag.reverse r4 with
              | none => none
              | some r5 =>
                  some ((unescape attrRev.reverse, unescape vr.1.reverse), r5)
          else none
      else none

/-- Parse the reversed entry region: entries come in reverse order, so
prepending each onto the accumulator restores document order; the
region ends at the reversed `</apiKey><payload>` marker, after which
the rest of the document is the fixed header followed by the api
key. -/
def parseBackF : Nat → List (List Char × List Char) → List Char →
    Option (List Char × List (List Char × List Char))
  | 0, acc, r =>
    match dropExact apiKeyCloseTag.reverse r with
    | some u =>
        match dropExact (xmlHeader ++ eventOpenTag) u.reverse with
        | some ak => some (ak, acc)
        | none => none
    | none => none
  | fuel + 1, acc, r =>
    match dropExact apiKeyCloseTag.reverse r with
    | some u =>
        match dropExact (xmlHeader ++ eventOpenTag) u.reverse with
        | some ak => some (ak, acc)
        | none => none
    | none =>
        match parseBackOne r with
        | none => none
        | some (kv, rest) => parseBackF fuel (kv :: acc) rest

/-- Decode a document produced by `create_xml`, recovering the api key
and every payload pair: strip the reversed `</payload></event>` from
the reversed document, then parse the entry region right to left. -/
def decode_xml (doc : List Char) :
    Option (List Char × List (List Char × List Char)) :=
  match dropExact payloadCloseTag.reverse doc.reverse with
  | none => none
  | some r0 => parseBackF r0.length [] r0

/-- A per-character encoder `g` that the entity decoder undoes in one
step, whatever follows. -/
def StepOk (g : Char → List Char) : Prop :=
  ∀ (c : Char) (f : Nat) (t : List Char),
    unescapeF (f + 1) (g c ++ t) = c :: unescapeF f t

/-! ## Helper lemmas about the flush model -/

theorem mem_sortByMtime {l : List DirEntry} {e : DirEntry} :
    e ∈ sortByMtime l ↔ e ∈ l :=
  (List.perm_insertionSort _ l).mem_iff

theorem sorted_sortByMtime (l : List DirEntry) :
    (sortByMtime l).Pairwise (fun a b => a.mtime ≤ b.mtime) :=
  List.sorted_insertionSort _ l

theorem mem_ilertEvents {l : List DirEntry} {e : DirEntry} :
    e ∈ ilertEvents l ↔ e ∈ l ∧ hasIlertSuffix e.name = true :=
  List.mem_filter

theorem mem_flushTrace {listing : List DirEntry} {r : String → Bool}
    {s : String → SendOutcome} {e : DirEntry} {res : EventResult} :
    (e, res) ∈ flushTrace listing r s ↔
      e ∈ sortByMtime (ilertEvents listing) ∧ res = eventResultOf r s e.name := by
  constructor
  · intro h
    obtain ⟨a, ha, hae⟩ := List.mem_map.mp h
    obtain ⟨h1, h2⟩ := Prod.mk.injEq .. ▸ hae
    exact ⟨h1 ▸ ha, h2.symm.trans (by rw [h1])⟩
  · rintro ⟨he, rfl⟩
    exact List.mem_map.mpr ⟨e, he, rfl⟩

theorem mem_deletedNames {listing : List DirEntry} {r : String → Bool}
    {s : String → SendOutcome} {n : String} :
    n ∈ deletedNames listing r s ↔
      ∃ e, e ∈ sortByMtime (ilertEvents listing) ∧
        stepDeletes (eventResultOf r s e.name) = true ∧ e.name = n := by
  constructor
  · intro h
    obtain ⟨p, hp, rfl⟩ := List.mem_map.mp h
    obtain ⟨htr, hdel⟩ := List.mem_filter.mp hp
    cases p with
    | mk e res =>
        obtain ⟨he, hres⟩ := mem_flushTrace.mp htr
        exact ⟨e, he, by rw [← hres]; exact hdel, rfl⟩
  · rintro ⟨e, he, hdel, rfl⟩
    exact List.mem_map.mpr ⟨(e, eventResultOf r s e.name),
      List.mem_filter.mpr ⟨mem_flushTrace.mpr ⟨he, rfl⟩, hdel⟩, rfl⟩

theorem mem_flushFinal {listing : List DirEntry} {r : String → Bool}
    {s : String → SendOutcome} {e : DirEntry} :
    e ∈ flushFinal listing r s ↔ e ∈ listing ∧ e.name ∉ deletedNames listing r s := by
  simp [flushFinal, List.mem_filter]

theorem trace_map_fst (listing : List DirEntry) (r : String → Bool)
    (s : String → SendOutcome) :
    (flushTrace listing r s).map Prod.fst = sortByMtime (ilertEvents listing) := by
  simp only [flushTrace, List.map_map]
  exact List.map_id _

/-! ## C1: the outcome classification table -/

/-- C1: each per-event disposition follows the spec §4.3 table
(`classify` equals the table written from the spec's words); a file is
removed exactly on a normal 2xx return or a non-429 status in 400-499;
and in a flush pass an event file is in the final directory iff its
trace result keeps it. -/
theorem claim_c1_outcome_table :
    (∀ o, classify o = specDisposition o)
    ∧ (∀ o, (classify o).delete = true ↔
        (o = SendOutcome.success ∨
          ∃ c, o = SendOutcome.httpError c ∧ 400 ≤ c ∧ c ≤ 499 ∧ c ≠ 429))
    ∧ (∀ (listing : List DirEntry) (readFails : String → Bool)
        (send : String → SendOutcome) (e : DirEntry) (res : EventResult),
        (e, res) ∈ flushTrace listing readFails send →
        (e ∈ flushFinal listing readFails send ↔ stepDeletes res = false)) := by
  refine ⟨?_, ?_, ?_⟩
  · intro o
    cases o with
    | success => rfl
    | urlError => rfl
    | otherException => rfl
    | httpError c =>
        by_cases h1 : c = 429
        · simp [classify, specDisposition, h1]
        · by_cases h2 : 400 ≤ c ∧ c ≤ 499
          · simp [classify, specDisposition, h1, h2]
          · simp [classify, specDisposition, h1, h2]
  · intro o
    cases o with
    | success => simp [classify]
    | urlError => simp [classify]
    | otherException => simp [classify]
    | httpError c =>
        by_cases h1 : c = 429
        · subst h1
          simp [classify]
        · by_cases h2 : 400 ≤ c ∧ c ≤ 499
          · simp only [classify, if_neg h1, if_pos h2]
            constructor
            · intro _
              exact Or.inr ⟨c, rfl, h2.1, h2.2, h1⟩
            · intro _
              trivial
          · simp only [classify, if_neg h1, if_neg h2]
            constructor
            · intro hfalse
              exact Bool.noConfusion hfalse
            · rintro (h | ⟨c', hc', hge, hle, _⟩)
              · exact SendOutcome.noConfusion h
              · cases SendOutcome.httpError.inj hc'
                exact absurd ⟨hge, hle⟩ h2
  · intro listing r s e res htr
    obtain ⟨he, hres⟩ := mem_flushTrace.mp htr
    rw [mem_flushFinal]
    constructor
    · rintro ⟨_, hnot⟩
      by_contra hdel
      rw [Bool.not_eq_false] at hdel
      exact hnot (mem_deletedNames.mpr ⟨e, he, by rw [← hres]; exact hdel, rfl⟩)
    · intro hfalse
      refine ⟨(mem_ilertEvents.mp (mem_sortByMtime.mp he)).1, fun hm => ?_⟩
      obtain ⟨e', he', hdel', hn⟩ := mem_deletedNames.mp hm
      rw [hn, ← hres, hfalse] at hdel'
      exact Bool.noConfusion hdel'

theorem claim_c1_outcome_table_witness :
    ((⟨"a.ilert", 0, "x"⟩ : DirEntry), EventResult.sent SendOutcome.success) ∈
      flushTrace [⟨"a.ilert", 0, "x"⟩] (fun _ => false) (fun _ => SendOutcome.success)
    ∧ (⟨"a.ilert", 0, "x"⟩ : DirEntry) ∉
        flushFinal [⟨"a.ilert", 0, "x"⟩] (fun _ => false) (fun _ => SendOutcome.success) := by
  have h := claim_c1_outcome_table.2.2 [⟨"a.ilert", 0, "x"⟩] (fun _ => false)
    (fun _ => SendOutcome.success) ⟨"a.ilert", 0, "x"⟩
    (EventResult.sent SendOutcome.success) (by decide)
  exact ⟨by decide, fun hm => absurd (h.mp hm) (by decide)⟩

/-! ## C3: one bad event never aborts the batch -/

/-- C3: when no listed event vanished before the sort, `flush` completes
and its trace covers the whole captured listing in sorted order — for
every choice of per-event read failures and send outcomes, so no
per-event failure cuts the batch short. -/
theorem claim_c3_batch_resilience :
    ∀ (listing : List DirEntry) (vanished readFails : String → Bool)
      (send : String → SendOutcome),
      (ilertEvents listing).any (fun e => vanished e.name) = false →
      flush listing vanished readFails send =
        FlushResult.completed (flushTrace listing readFails send)
          (flushFinal listing readFails send)
      ∧ (flushTrace listing readFails send).map Prod.fst
          = sortByMtime (ilertEvents listing) := by
  intro listing v r s h
  exact ⟨by simp [flush, h], trace_map_fst listing r s⟩

theorem claim_c3_batch_resilience_witness :
    (ilertEvents [(⟨"a.ilert", 1, "x"⟩ : DirEntry), ⟨"b.ilert", 2, "y"⟩]).any
      (fun e => (fun _ => false : String → Bool) e.name) = false
    ∧ (flushTrace [(⟨"a.ilert", 1, "x"⟩ : DirEntry), ⟨"b.ilert", 2, "y"⟩]
        (fun n => decide (n = "a.ilert")) (fun _ => SendOutcome.success)).map Prod.fst
        = sortByMtime (ilertEvents [(⟨"a.ilert", 1, "x"⟩ : DirEntry), ⟨"b.ilert", 2, "y"⟩]) :=
  ⟨by decide, (claim_c3_batch_resilience
    [(⟨"a.ilert", 1, "x"⟩ : DirEntry), ⟨"b.ilert", 2, "y"⟩] (fun _ => false)
    (fun n => decide (n = "a.ilert")) (fun _ => SendOutcome.success) (by decide)).2⟩

/-! ## C5: the lock is released on every exit path -/

/-- C5: on every exit path of `lock_and_flush` — flush returning
normally, flush raising, or even `flock` itself raising — the `finally`
closes the lock file, so the exclusive lock is no longer held when the
scope ends; on the raising path the lock really was held inside the
body, and the exception still propagates after release. -/
theorem claim_c5_lock_released :
    (∀ p, ((lock_and_flush_locking p).1).lockHeld = false
      ∧ ((lock_and_flush_locking p).1).fileOpen = false)
    ∧ ((lockFlushBody LockPath.flushRaises ⟨true, false⟩).1).lockHeld = true
    ∧ (lock_and_flush_locking LockPath.flushRaises).2 = true
    ∧ (lock_and_flush_locking LockPath.completes).2 = false := by
  refine ⟨fun p => ?_, rfl, rfl, rfl⟩
  cases p <;> exact ⟨rfl, rfl⟩

/-! ## C6: a failed read skips the file and continues -/

/-- C6: if reading one selected event file raises `IOError`, that file
is recorded as skipped, remains in the directory, and the trace still
covers the full sorted listing — the read failure is not fatal to the
invocation. -/
theorem claim_c6_read_failure_skips :
    ∀ (listing : List DirEntry) (readFails : String → Bool)
      (send : String → SendOutcome) (e : DirEntry),
      e ∈ ilertEvents listing → readFails e.name = true →
      (e, EventResult.readFailed) ∈ flushTrace listing readFails send
      ∧ e ∈ flushFinal listing readFails send
      ∧ (flushTrace listing readFails send).map Prod.fst
          = sortByMtime (ilertEvents listing) := by
  intro listing r s e he hr
  have hs : e ∈ sortByMtime (ilertEvents listing) := mem_sortByMtime.mpr he
  refine ⟨mem_flushTrace.mpr ⟨hs, by simp [eventResultOf, hr]⟩, ?_,
    trace_map_fst listing r s⟩
  rw [mem_flushFinal]
  refine ⟨(mem_ilertEvents.mp he).1, fun hm => ?_⟩
  obtain ⟨e', he', hdel', hn⟩ := mem_deletedNames.mp hm
  rw [hn] at hdel'
  simp [eventResultOf, hr, stepDeletes] at hdel'

theorem claim_c6_read_failure_skips_witness :
    ((⟨"a.ilert", 1, "x"⟩ : DirEntry), EventResult.readFailed) ∈
      flushTrace [⟨"a.ilert", 1, "x"⟩] (fun _ => true) (fun _ => SendOutcome.success)
    ∧ (⟨"a.ilert", 1, "x"⟩ : DirEntry) ∈
      flushFinal [⟨"a.ilert", 1, "x"⟩] (fun _ => true) (fun _ => SendOutcome.success) := by
  have h := claim_c6_read_failure_skips [⟨"a.ilert", 1, "x"⟩] (fun _ => true)
    (fun _ => SendOutcome.success) ⟨"a.ilert", 1, "x"⟩ (by decide) rfl
  exact ⟨h.1, h.2.1⟩

/-! ## C9: a file vanishing before the sort aborts the invocation -/

/-- C9: the skip-and-continue handling only covers the read of an
already-selected file; if any listed `.ilert` file vanishes between the
directory listing and the `getmtime` sort key calls, the whole flush
invocation aborts with no event processed. -/
theorem claim_c9_vanished_aborts :
    ∀ (listing : List DirEntry) (vanished readFails : String → Bool)
      (send : String → SendOutcome) (e : DirEntry),
      e ∈ ilertEvents listing → vanished e.name = true →
      flush listing vanished readFails send = FlushResult.aborted := by
  intro listing v r s e he hv
  unfold flush
  rw [if_pos]
  exact List.any_eq_true.mpr ⟨e, he, hv⟩

theorem claim_c9_vanished_aborts_witness :
    (⟨"a.ilert", 0, "x"⟩ : DirEntry) ∈ ilertEvents [⟨"a.ilert", 0, "x"⟩]
    ∧ flush [⟨"a.ilert", 0, "x"⟩] (fun _ => true) (fun _ => false)
        (fun _ => SendOutcome.success) = FlushResult.aborted :=
  ⟨by decide, claim_c9_vanished_aborts [⟨"a.ilert", 0, "x"⟩] (fun _ => true)
    (fun _ => false) (fun _ => SendOutcome.success) ⟨"a.ilert", 0, "x"⟩ (by decide) rfl⟩

/-! ## C4: selection and delivery order -/

/-- C4: the flush pass selects exactly the directory entries whose names
end in `.ilert`, transmits them in ascending modification-time order,
and when the listing's modification times are pairwise distinct the
transmission order is strictly ascending. -/
theorem claim_c4_selection_and_order :
    ∀ (listing : List DirEntry) (readFails : String → Bool) (send : String → SendOutcome),
      (∀ e, e ∈ sortByMtime (ilertEvents listing) ↔
        e ∈ listing ∧ hasIlertSuffix e.name = true)
      ∧ ((sortByMtime (ilertEvents listing)).Pairwise (fun a b => a.mtime ≤ b.mtime))
      ∧ ((flushTrace listing readFails send).map Prod.fst
          = sortByMtime (ilertEvents listing))
      ∧ (listing.Pairwise (fun a b => a.mtime ≠ b.mtime) →
          ((flushTrace listing readFails send).map Prod.fst).Pairwise
            (fun a b => a.mtime < b.mtime)) := by
  intro listing r s
  refine ⟨fun e => Iff.trans mem_sortByMtime mem_ilertEvents, sorted_sortByMtime _,
    trace_map_fst listing r s, ?_⟩
  intro hne
  rw [trace_map_fst]
  have h1 := sorted_sortByMtime (ilertEvents listing)
  have h2 : (ilertEvents listing).Pairwise (fun a b => a.mtime ≠ b.mtime) :=
    List.Pairwise.sublist (List.filter_sublist listing) hne
  have h3 : (sortByMtime (ilertEvents listing)).Pairwise (fun a b => a.mtime ≠ b.mtime) :=
    ((List.perm_insertionSort _ _).pairwise_iff fun h => Ne.symm h).mpr h2
  exact (h1.and h3).imp fun h => lt_of_le_of_ne h.1 h.2

theorem claim_c4_selection_and_order_witness :
    ([(⟨"b.ilert", 2, "y"⟩ : DirEntry), ⟨"a.ilert", 1, "x"⟩, ⟨"lockfile", 0, ""⟩]).Pairwise
      (fun a b => a.mtime ≠ b.mtime)
    ∧ ((flushTrace [(⟨"b.ilert", 2, "y"⟩ : DirEntry), ⟨"a.ilert", 1, "x"⟩, ⟨"lockfile", 0, ""⟩]
        (fun _ => false) (fun _ => SendOutcome.success)).map Prod.fst).Pairwise
        (fun a b => a.mtime < b.mtime) :=
  ⟨by decide, (claim_c4_selection_and_order
    [(⟨"b.ilert", 2, "y"⟩ : DirEntry), ⟨"a.ilert", 1, "x"⟩, ⟨"lockfile", 0, ""⟩]
    (fun _ => false) (fun _ => SendOutcome.success)).2.2.2 (by decide)⟩

/-! ## C10: only `.ilert` files are touched -/

theorem tmp_not_ilert (s : String) :
    (".tmp").toList.isSuffixOf s.toList = true → hasIlertSuffix s = false := by
  intro h
  by_contra hil
  rw [Bool.not_eq_false] at hil
  have h1 : (".tmp").toList <:+ s.toList := List.isSuffixOf_iff_suffix.mp h
  have h2 : (".ilert").toList <:+ s.toList := List.isSuffixOf_iff_suffix.mp hil
  obtain ⟨t1, e1⟩ := h1
  obtain ⟨t2, e2⟩ := h2
  have g1 : s.toList.getLast? = some 'p' := by
    rw [← e1, List.getLast?_append_of_ne_nil _ (by decide)]
    decide
  have g2 : s.toList.getLast? = some 't' := by
    rw [← e2, List.getLast?_append_of_ne_nil _ (by decide)]
    decide
  rw [g1] at g2
  exact absurd g2 (by decide)

/-- C10: flush removes only files whose name ends in `.ilert`; any other
entry — in particular the lock file and `.tmp` files — is neither
transmitted nor deleted, and every transmitted file has the `.ilert`
suffix. -/
theorem claim_c10_only_ilert_touched :
    ∀ (listing : List DirEntry) (readFails : String → Bool) (send : String → SendOutcome),
      (∀ e, e ∈ listing → hasIlertSuffix e.name = false →
        e ∈ flushFinal listing readFails send)
      ∧ (∀ p, p ∈ flushTrace listing readFails send → hasIlertSuffix p.1.name = true)
      ∧ (∀ e, e ∈ listing →
          (e.name = "lockfile" ∨ (".tmp").toList.isSuffixOf e.name.toList = true) →
          e ∈ flushFinal listing readFails send
          ∧ ∀ res, (e, res) ∉ flushTrace listing readFails send) := by
  intro listing r s
  have keep : ∀ e, e ∈ listing → hasIlertSuffix e.name = false →
      e ∈ flushFinal listing r s := by
    intro e he hil
    rw [mem_flushFinal]
    refine ⟨he, fun hm => ?_⟩
    obtain ⟨e', he', _, hn⟩ := mem_deletedNames.mp hm
    have hsuf := (mem_ilertEvents.mp (mem_sortByMtime.mp he')).2
    rw [hn, hil] at hsuf
    exact Bool.noConfusion hsuf
  have tr : ∀ p, p ∈ flushTrace listing r s → hasIlertSuffix p.1.name = true := by
    intro p hp
    cases p with
    | mk e res => exact (mem_ilertEvents.mp (mem_sortByMtime.mp (mem_flushTrace.mp hp).1)).2
  refine ⟨keep, tr, ?_⟩
  intro e he hor
  have hil : hasIlertSuffix e.name = false := by
    rcases hor with h | h
    · rw [h]
      decide
    · exact tmp_not_ilert e.name h
  refine ⟨keep e he hil, fun res hm => ?_⟩
  have hsuf := tr (e, res) hm
  rw [hil] at hsuf
  exact Bool.noConfusion hsuf

theorem claim_c10_only_ilert_touched_witness :
    (⟨"lockfile", 0, ""⟩ : DirEntry) ∈
      [(⟨"lockfile", 0, ""⟩ : DirEntry), ⟨"u.tmp", 1, "z"⟩, ⟨"a.ilert", 2, "x"⟩]
    ∧ (⟨"lockfile", 0, ""⟩ : DirEntry) ∈
      flushFinal [(⟨"lockfile", 0, ""⟩ : DirEntry), ⟨"u.tmp", 1, "z"⟩, ⟨"a.ilert", 2, "x"⟩]
        (fun _ => false) (fun _ => SendOutcome.success) := by
  have h := (claim_c10_only_ilert_touched
    [(⟨"lockfile", 0, ""⟩ : DirEntry), ⟨"u.tmp", 1, "z"⟩, ⟨"a.ilert", 2, "x"⟩]
    (fun _ => false) (fun _ => SendOutcome.success)).2.2 ⟨"lockfile", 0, ""⟩
    (by decide) (Or.inl rfl)
  exact ⟨by decide, h.1⟩

/-! ## C8: retained files are re-sent unchanged and in order -/

/-- C8: the directory after a flush pass is a sublist of the listing —
flush never writes to an event file, so every retained entry keeps its
exact name, modification time and content — and on the next flush a
retained `.ilert` file is re-submitted as the very same entry, in a
trace that is again ascending in modification time, so it is not
reordered ahead of events created after it. -/
theorem claim_c8_retained_unchanged :
    ∀ (listing : List DirEntry) (readFails readFails2 : String → Bool)
      (send send2 : String → SendOutcome) (e : DirEntry),
      List.Sublist (flushFinal listing readFails send) listing
      ∧ (e ∈ flushFinal listing readFails send → e ∈ listing)
      ∧ (e ∈ flushFinal listing readFails send → hasIlertSuffix e.name = true →
          readFails2 e.name = false →
          (e, EventResult.sent (send2 e.name)) ∈
            flushTrace (flushFinal listing readFails send) readFails2 send2)
      ∧ ((flushTrace (flushFinal listing readFails send) readFails2 send2).map
          Prod.fst).Pairwise (fun a b => a.mtime ≤ b.mtime) := by
  intro listing r r2 s s2 e
  refine ⟨List.filter_sublist _, fun h => (mem_flushFinal.mp h).1, ?_, ?_⟩
  · intro hf hil hr2
    exact mem_flushTrace.mpr ⟨mem_sortByMtime.mpr (mem_ilertEvents.mpr ⟨hf, hil⟩),
      by simp [eventResultOf, hr2]⟩
  · rw [trace_map_fst]
    exact sorted_sortByMtime _

theorem claim_c8_retained_unchanged_witness :
    ((⟨"a.ilert", 1, "x"⟩ : DirEntry), EventResult.sent (SendOutcome.httpError 500)) ∈
      flushTrace (flushFinal [(⟨"a.ilert", 1, "x"⟩ : DirEntry), ⟨"b.ilert", 2, "y"⟩]
          (fun _ => false) (fun _ => SendOutcome.httpError 500))
        (fun _ => false) (fun _ => SendOutcome.httpError 500) :=
  (claim_c8_retained_unchanged [(⟨"a.ilert", 1, "x"⟩ : DirEntry), ⟨"b.ilert", 2, "y"⟩]
    (fun _ => false) (fun _ => false) (fun _ => SendOutcome.httpError 500)
    (fun _ => SendOutcome.httpError 500) ⟨"a.ilert", 1, "x"⟩).2.2.1 (by decide) (by decide) rfl

/-! ## C2: atomic persist, fatal on failure -/

theorem mem_removeFile {fs : FileMap} {n m : String} {c : List Char} :
    (m, c) ∈ removeFile fs n ↔ (m, c) ∈ fs ∧ m ≠ n := by
  simp [removeFile, List.mem_filter]

theorem mem_writeFile {fs : FileMap} {n m : String} {d c : List Char} :
    (m, c) ∈ writeFile fs n d ↔ ((m, c) ∈ fs ∧ m ≠ n) ∨ (m = n ∧ c = d) := by
  simp [writeFile, List.mem_append, mem_removeFile]

theorem tmpName_ne_eventName (uid : String) : tmpName uid ≠ eventName uid := by
  intro h
  have h2 := congrArg String.data h
  simp only [tmpName, eventName, String.data_append] at h2
  have h3 := List.append_cancel_left h2
  exact absurd h3 (by decide)

/-- C2: `persist_event` writes the document under the `.tmp` suffix and
renames to `.ilert`, so with a fresh identifier the `.ilert` file either
holds the complete encoded event or does not exist; when any step
raises, the process exits with status 1 and no `.ilert` file for this
event is visible. -/
theorem claim_c2_atomic_persist :
    ∀ (apikey : List Char) (payload : List (List Char × List Char)) (uid : String)
      (fs : FileMap) (mode : PersistFail),
      (∀ c, (eventName uid, c) ∉ fs) →
      ((mode = PersistFail.noFailure →
          (persist_event apikey payload uid fs mode).exitCode = none
          ∧ (eventName uid, create_xml apikey payload) ∈
              (persist_event apikey payload uid fs mode).fs)
      ∧ (mode ≠ PersistFail.noFailure →
          (persist_event apikey payload uid fs mode).exitCode = some 1
          ∧ ∀ c, (eventName uid, c) ∉ (persist_event apikey payload uid fs mode).fs)
      ∧ (∀ c, (eventName uid, c) ∈ (persist_event apikey payload uid fs mode).fs →
          c = create_xml apikey payload)) := by
  intro ak p uid fs mode hfresh
  cases mode with
  | noFailure =>
      refine ⟨fun _ => ⟨rfl, ?_⟩, fun h => absurd rfl h, fun c hc => ?_⟩
      · exact mem_writeFile.mpr (Or.inr ⟨rfl, rfl⟩)
      · rcases mem_writeFile.mp hc with ⟨_, hne⟩ | ⟨_, hcd⟩
        · exact absurd rfl hne
        · exact hcd
  | writeFails t =>
      refine ⟨fun h => PersistFail.noConfusion h, fun _ => ⟨rfl, fun c hc => ?_⟩,
        fun c hc => ?_⟩
      · rcases mem_writeFile.mp hc with ⟨hin, _⟩ | ⟨heq, _⟩
        · exact hfresh c hin
        · exact tmpName_ne_eventName uid heq.symm
      · rcases mem_writeFile.mp hc with ⟨hin, _⟩ | ⟨heq, _⟩
        · exact absurd hin (hfresh c)
        · exact absurd heq.symm (tmpName_ne_eventName uid)
  | renameFails =>
      refine ⟨fun h => PersistFail.noConfusion h, fun _ => ⟨rfl, fun c hc => ?_⟩,
        fun c hc => ?_⟩
      · rcases mem_writeFile.mp hc with ⟨hin, _⟩ | ⟨heq, _⟩
        · exact hfresh c hin
        · exact tmpName_ne_eventName uid heq.symm
      · rcases mem_writeFile.mp hc with ⟨hin, _⟩ | ⟨heq, _⟩
        · exact absurd hin (hfresh c)
        · exact absurd heq.symm (tmpName_ne_eventName uid)

theorem claim_c2_atomic_persist_witness :
    (persist_event [] [] "u" [] PersistFail.renameFails).exitCode = some 1
    ∧ ∀ c, (eventName "u", c) ∉ (persist_event [] [] "u" [] PersistFail.renameFails).fs :=
  (claim_c2_atomic_persist [] [] "u" [] PersistFail.renameFails
    (fun _ h => absurd h (List.not_mem_nil _))).2.1 (by decide)

/-! ## C7: the wire format round-trips the api key and payload -/

theorem dropExact_append : ∀ (p s : List Char), dropExact p (p ++ s) = some s := by
  intro p
  induction p with
  | nil => intro s; rfl
  | cons c p ih => intro s; simp [dropExact, ih]

theorem spanNe_append_stop (stop : Char) :
    ∀ (a r : List Char), stop ∉ a → spanNe stop (a ++ stop :: r) = (a, stop :: r) := by
  intro a
  induction a with
  | nil => intro r _; simp [spanNe]
  | cons c a ih =>
      intro r h
      rw [List.mem_cons, not_or] at h
      have hc : ¬ c = stop := fun hh => h.1 hh.symm
      simp [spanNe, hc, ih r h.2]

theorem splitAtChar_append (q : Char) :
    ∀ (a r : List Char), q ∉ a → splitAtChar q (a ++ q :: r) = some (a, r) := by
  intro a
  induction a with
  | nil => intro r _; simp [splitAtChar]
  | cons c a ih =>
      intro r h
      rw [List.mem_cons, not_or] at h
      have hc : ¬ c = q := fun hh => h.1 hh.symm
      simp [splitAtChar, hc, ih r h.2]

theorem unescapeF_nil : ∀ f, unescapeF f [] = [] := by
  intro f
  cases f <;> rfl

theorem unescapeF_cons_ne {c : Char} (f : Nat) (r : List Char) (h : ¬ c = '&') :
    unescapeF (f + 1) (c :: r) = c :: unescapeF f r := by
  simp [unescapeF, h]

theorem unescAmp_amp (r : List Char) :
    unescAmp ('a' :: 'm' :: 'p' :: ';' :: r) = some ('&', r) := rfl

theorem unescAmp_lt (r : List Char) :
    unescAmp ('l' :: 't' :: ';' :: r) = some ('<', r) := rfl

theorem unescAmp_gt (r : List Char) :
    unescAmp ('g' :: 't' :: ';' :: r) = some ('>', r) := rfl

theorem unescAmp_quot (r : List Char) :
    unescAmp ('q' :: 'u' :: 'o' :: 't' :: ';' :: r) = some (dqChar, r) := rfl

theorem unescAmp_n10 (r : List Char) :
    unescAmp ('#' :: '1' :: '0' :: ';' :: r) = some (nlChar, r) := rfl

theorem unescAmp_n13 (r : List Char) :
    unescAmp ('#' :: '1' :: '3' :: ';' :: r) = some (crChar, r) := rfl

theorem unescAmp_n9 (r : List Char) :
    unescAmp ('#' :: '9' :: ';' :: r) = some (tabChar, r) := rfl

theorem unescapeF_amp (f : Nat) (r : List Char) :
    unescapeF (f + 1) ('&' :: 'a' :: 'm' :: 'p' :: ';' :: r) = '&' :: unescapeF f r := by
  simp [unescapeF, unescAmp_amp]

theorem unescapeF_lt (f : Nat) (r : List Char) :
    unescapeF (f + 1) ('&' :: 'l' :: 't' :: ';' :: r) = '<' :: unescapeF f r := by
  simp [unescapeF, unescAmp_lt]

theorem unescapeF_gt (f : Nat) (r : List Char) :
    unescapeF (f + 1) ('&' :: 'g' :: 't' :: ';' :: r) = '>' :: unescapeF f r := by
  simp [unescapeF, unescAmp_gt]

theorem unescapeF_quot (f : Nat) (r : List Char) :
    unescapeF (f + 1) ('&' :: 'q' :: 'u' :: 'o' :: 't' :: ';' :: r)
      = dqChar :: unescapeF f r := by
  simp [unescapeF, unescAmp_quot]

theorem unescapeF_n10 (f : Nat) (r : List Char) :
    unescapeF (f + 1) ('&' :: '#' :: '1' :: '0' :: ';' :: r) = nlChar :: unescapeF f r := by
  simp [unescapeF, unescAmp_n10]

theorem unescapeF_n13 (f : Nat) (r : List Char) :
    unescapeF (f + 1) ('&' :: '#' :: '1' :: '3' :: ';' :: r) = crChar :: unescapeF f r := by
  simp [unescapeF, unescAmp_n13]

theorem unescapeF_n9 (f : Nat) (r : List Char) :
    unescapeF (f + 1) ('&' :: '#' :: '9' :: ';' :: r) = tabChar :: unescapeF f r := by
  simp [unescapeF, unescAmp_n9]

theorem stepOk_escapeChar : StepOk escapeChar := by
  intro c f t
  by_cases h1 : c = '&'
  · subst h1
    rw [show escapeChar '&' = ('&' :: 'a' :: 'm' :: 'p' :: ';' :: ([] : List Char)) from
      by decide]
    simp only [List.cons_append, List.nil_append]
    exact unescapeF_amp f t
  by_cases h2 : c = '<'
  · subst h2
    rw [show escapeChar '<' = ('&' :: 'l' :: 't' :: ';' :: ([] : List Char)) from by decide]
    simp only [List.cons_append, List.nil_append]
    exact unescapeF_lt f t
  by_cases h3 : c = '>'
  · subst h3
    rw [show escapeChar '>' = ('&' :: 'g' :: 't' :: ';' :: ([] : List Char)) from by decide]
    simp only [List.cons_append, List.nil_append]
    exact unescapeF_gt f t
  · rw [show escapeChar c = [c] from by simp [escapeChar, h1, h2, h3]]
    simp only [List.cons_append, List.nil_append]
    exact unescapeF_cons_ne f t h1

theorem stepOk_escapeAttrChar : StepOk escapeAttrChar := by
  intro c f t
  by_cases h1 : c = '&'
  · subst h1
    rw [show escapeAttrChar '&' = ('&' :: 'a' :: 'm' :: 'p' :: ';' :: ([] : List Char)) from
      by decide]
    simp only [List.cons_append, List.nil_append]
    exact unescapeF_amp f t
  by_cases h2 : c = '<'
  · subst h2
    rw [show escapeAttrChar '<' = ('&' :: 'l' :: 't' :: ';' :: ([] : List Char)) from
      by decide]
    simp only [List.cons_append, List.nil_append]
    exact unescapeF_lt f t
  by_cases h3 : c = '>'
  · subst h3
    rw [show escapeAttrChar '>' = ('&' :: 'g' :: 't' :: ';' :: ([] : List Char)) from
      by decide]
    simp only [List.cons_append, List.nil_append]
    exact unescapeF_gt f t
  by_cases h4 : c = nlChar
  · subst h4
    rw [show escapeAttrChar nlChar
        = ('&' :: '#' :: '1' :: '0' :: ';' :: ([] : List Char)) from by decide]
    simp only [List.cons_append, List.nil_append]
    exact unescapeF_n10 f t
  by_cases h5 : c = crChar
  · subst h5
    rw [show escapeAttrChar crChar
        = ('&' :: '#' :: '1' :: '3' :: ';' :: ([] : List Char)) from by decide]
    simp only [List.cons_append, List.nil_append]
    exact unescapeF_n13 f t
  by_cases h6 : c = tabChar
  · subst h6
    rw [show escapeAttrChar tabChar
        = ('&' :: '#' :: '9' :: ';' :: ([] : List Char)) from by decide]
    simp only [List.cons_append, List.nil_append]
    exact unescapeF_n9 f t
  · rw [show escapeAttrChar c = [c] from by simp [escapeAttrChar, h1, h2, h3, h4, h5, h6]]
    simp only [List.cons_append, List.nil_append]
    exact unescapeF_cons_ne f t h1

theorem stepOk_escAttrQChar : StepOk escAttrQChar := by
  intro c f t
  by_cases h1 : c = '&'
  · subst h1
    rw [show escAttrQChar '&' = ('&' :: 'a' :: 'm' :: 'p' :: ';' :: ([] : List Char)) from
      by decide]
    simp only [List.cons_append, List.nil_append]
    exact unescapeF_amp f t
  by_cases h2 : c = '<'
  · subst h2
    rw [show escAttrQChar '<' = ('&' :: 'l' :: 't' :: ';' :: ([] : List Char)) from by decide]
    simp only [List.cons_append, List.nil_append]
    exact unescapeF_lt f t
  by_cases h3 : c = '>'
  · subst h3
    rw [show escAttrQChar '>' = ('&' :: 'g' :: 't' :: ';' :: ([] : List Char)) from by decide]
    simp only [List.cons_append, List.nil_append]
    exact unescapeF_gt f t
  by_cases h4 : c = nlChar
  · subst h4
    rw [show escAttrQChar nlChar
        = ('&' :: '#' :: '1' :: '0' :: ';' :: ([] : List Char)) from by decide]
    simp only [List.cons_append, List.nil_append]
    exact unescapeF_n10 f t
  by_cases h5 : c = crChar
  · subst h5
    rw [show escAttrQChar crChar
        = ('&' :: '#' :: '1' :: '3' :: ';' :: ([] : List Char)) from by decide]
    simp only [List.cons_append, List.nil_append]
    exact unescapeF_n13 f t
  by_cases h6 : c = tabChar
  · subst h6
    rw [show escAttrQChar tabChar
        = ('&' :: '#' :: '9' :: ';' :: ([] : List Char)) from by decide]
    simp only [List.cons_append, List.nil_append]
    exact unescapeF_n9 f t
  by_cases h7 : c = dqChar
  · subst h7
    rw [show escAttrQChar dqChar
        = ('&' :: 'q' :: 'u' :: 'o' :: 't' :: ';' :: ([] : List Char)) from by decide]
    simp only [List.cons_append, List.nil_append]
    exact unescapeF_quot f t
  · rw [show escAttrQChar c = [c] from by
      simp [escAttrQChar, escapeAttrChar, quotRepChar, h1, h2, h3, h4, h5, h6, h7]]
    simp only [List.cons_append, List.nil_append]
    exact unescapeF_cons_ne f t h1

theorem stepOk_ne_nil {g : Char → List Char} (hg : StepOk g) (c : Char) : g c ≠ [] := by
  intro h
  have h2 := hg c 0 []
  rw [h] at h2
  simp [unescapeF_nil] at h2

theorem length_le_flatMap {g : Char → List Char} (h : ∀ c, g c ≠ []) :
    ∀ s : List Char, s.length ≤ (s.flatMap g).length := by
  intro s
  induction s with
  | nil => simp
  | cons c s ih =>
      have h1 : 1 ≤ (g c).length := by
        cases hgc : g c with
        | nil => exact absurd hgc (h c)
        | cons _ _ => simp
      rw [List.flatMap_cons, List.length_append, List.length_cons]
      omega

theorem unescapeF_flatMap {g : Char → List Char} (hg : StepOk g) :
    ∀ (s : List Char) (fuel : Nat), s.length ≤ fuel → unescapeF fuel (s.flatMap g) = s := by
  intro s
  induction s with
  | nil => intro fuel _; rw [List.flatMap_nil, unescapeF_nil]
  | cons c s ih =>
      intro fuel hf
      rw [List.length_cons] at hf
      cases fuel with
      | zero => omega
      | succ f =>
          rw [List.flatMap_cons, hg c f (s.flatMap g), ih f (by omega)]

theorem unescape_flatMap {g : Char → List Char} (hg : StepOk g) (s : List Char) :
    unescape (s.flatMap g) = s :=
  unescapeF_flatMap hg s _ (length_le_flatMap (stepOk_ne_nil hg) s)

theorem gt_not_mem_escape (v : List Char) : ('>') ∉ escape v := by
  intro h
  obtain ⟨c, _, hc⟩ := List.mem_flatMap.mp h
  by_cases h1 : c = '&'
  · subst h1; exact absurd hc (by decide)
  by_cases h2 : c = '<'
  · subst h2; exact absurd hc (by decide)
  by_cases h3 : c = '>'
  · subst h3; exact absurd hc (by decide)
  · rw [show escapeChar c = [c] from by simp [escapeChar, h1, h2, h3]] at hc
    exact h3 (List.mem_singleton.mp hc).symm

theorem dq_not_mem_quotRep (l : List Char) : dqChar ∉ l.flatMap quotRepChar := by
  intro h
  obtain ⟨c, _, hc⟩ := List.mem_flatMap.mp h
  by_cases h1 : c = dqChar
  · subst h1; exact absurd hc (by decide)
  · rw [show quotRepChar c = [c] from by simp [quotRepChar, h1]] at hc
    exact h1 (List.mem_singleton.mp hc).symm

theorem escAttrQ_eq_flatMap (s : List Char) :
    (s.flatMap escapeAttrChar).flatMap quotRepChar = s.flatMap escAttrQChar :=
  List.flatMap_assoc s escapeAttrChar quotRepChar

theorem parseBackOne_generic (q : Char) (content k v rest : List Char)
    (hq : q = dqChar ∨ q = sqChar)
    (hnc : q ∉ content)
    (hqa : quoteattr k = q :: (content ++ [q]))
    (hun : unescape content = k) :
    parseBackOne ((encodeEntry (k, v)).reverse ++ rest) = some ((k, v), rest) := by
  have hncr : q ∉ content.reverse := fun hh => hnc (List.mem_reverse.mp hh)
  have hgt : ('>') ∉ (escape v).reverse :=
    fun hh => gt_not_mem_escape v (List.mem_reverse.mp hh)
  have hshape : (encodeEntry (k, v)).reverse ++ rest
      = entryCloseTag.reverse ++ ((escape v).reverse ++ ('>' ::
          (q :: (content.reverse ++ (q :: (entryOpenTag.reverse ++ rest)))))) := by
    rw [encodeEntry, hqa]
    simp [List.reverse_append, List.append_assoc]
  have hspan := fun r => spanNe_append_stop '>' ((escape v).reverse) r hgt
  have hsplit := fun r => splitAtChar_append q content.reverse r hncr
  have hv : unescape (escape v) = v := unescape_flatMap stepOk_escapeChar v
  rw [hshape]
  unfold parseBackOne
  rw [dropExact_append]
  simp only [hspan, hsplit, dropExact_append, List.reverse_reverse, hq, hun, hv]
  simp [hq, hun, hv]

theorem parseBackOne_encode (k v rest : List Char) :
    parseBackOne ((encodeEntry (k, v)).reverse ++ rest) = some ((k, v), rest) := by
  by_cases hdq : dqChar ∈ k.flatMap escapeAttrChar
  · by_cases hsq : sqChar ∈ k.flatMap escapeAttrChar
    · refine parseBackOne_generic dqChar ((k.flatMap escapeAttrChar).flatMap quotRepChar)
        k v rest (Or.inl rfl) (dq_not_mem_quotRep _) (by simp [quoteattr, hdq, hsq]) ?_
      rw [escAttrQ_eq_flatMap]
      exact unescape_flatMap stepOk_escAttrQChar k
    · exact parseBackOne_generic sqChar (k.flatMap escapeAttrChar) k v rest (Or.inr rfl)
        hsq (by simp [quoteattr, hdq, hsq]) (unescape_flatMap stepOk_escapeAttrChar k)
  · exact parseBackOne_generic dqChar (k.flatMap escapeAttrChar) k v rest (Or.inl rfl)
      hdq (by simp [quoteattr, hdq]) (unescape_flatMap stepOk_escapeAttrChar k)

theorem dropExact_apiKeyRev_entry (kv : List Char × List Char) (X : List Char) :
    dropExact apiKeyCloseTag.reverse ((encodeEntry kv).reverse ++ X) = none := by
  obtain ⟨k, v⟩ := kv
  have h2 : (encodeEntry (k, v)).reverse ++ X
      = entryCloseTag.reverse ++ ((escape v).reverse ++ ('>' ::
          ((quoteattr k).reverse ++ (entryOpenTag.reverse ++ X)))) := by
    rw [encodeEntry]
    simp [List.reverse_append, List.append_assoc]
  have hc : entryCloseTag.reverse
      = '>' :: 'y' :: ('r' :: 't' :: 'n' :: 'e' :: '/' :: '<' :: ([] : List Char)) := by
    decide
  have ha : apiKeyCloseTag.reverse
      = '>' :: 'd' :: ('a' :: 'o' :: 'l' :: 'y' :: 'a' :: 'p' :: '<' :: '>' :: 'y' :: 'e'
          :: 'K' :: 'i' :: 'p' :: 'a' :: '/' :: '<' :: ([] : List Char)) := by
    decide
  rw [h2, hc, ha]
  simp [dropExact]

theorem length_le_flatMap_encode :
    ∀ es : List (List Char × List Char), es.length ≤ (es.flatMap encodeEntry).length := by
  intro es
  induction es with
  | nil => simp
  | cons kv es ih =>
      rw [List.flatMap_cons, List.length_append, List.length_cons]
      have h1 : 1 ≤ (encodeEntry kv).length := by
        rw [encodeEntry]
        have h2 : entryOpenTag.length = 11 := by decide
        simp only [List.length_append]
        omega
      omega

theorem parseBackF_encode (ak : List Char) :
    ∀ (es acc : List (List Char × List Char)) (fuel : Nat),
      es.length ≤ fuel →
      parseBackF fuel acc ((es.flatMap encodeEntry).reverse
          ++ (apiKeyCloseTag.reverse ++ (ak.reverse ++ (xmlHeader ++ eventOpenTag).reverse)))
        = some (ak, es ++ acc) := by
  intro es
  induction es using List.reverseRecOn with
  | nil =>
      intro acc fuel _
      simp only [List.flatMap_nil, List.reverse_nil, List.nil_append]
      have hu : (ak.reverse ++ (xmlHeader ++ eventOpenTag).reverse).reverse
          = (xmlHeader ++ eventOpenTag) ++ ak := by
        simp [List.reverse_append]
      cases fuel with
      | zero => simp only [parseBackF, dropExact_append, hu]
      | succ f => simp only [parseBackF, dropExact_append, hu]
  | append_singleton es kv ih =>
      intro acc fuel hf
      rw [List.length_append, List.length_singleton] at hf
      cases fuel with
      | zero => omega
      | succ f =>
          have hsh : (((es ++ [kv]).flatMap encodeEntry).reverse
                ++ (apiKeyCloseTag.reverse
                    ++ (ak.reverse ++ (xmlHeader ++ eventOpenTag).reverse)))
              = (encodeEntry kv).reverse ++ ((es.flatMap encodeEntry).reverse
                  ++ (apiKeyCloseTag.reverse
                      ++ (ak.reverse ++ (xmlHeader ++ eventOpenTag).reverse))) := by
            simp [List.flatMap_append, List.reverse_append, List.append_assoc]
          rw [hsh]
          obtain ⟨k, v⟩ := kv
          simp only [parseBackF, dropExact_apiKeyRev_entry, parseBackOne_encode]
          rw [ih ((k, v) :: acc) f (by omega)]
          simp

/-- C7: the document produced by `create_xml` round-trips the api key
and every payload entry without loss: the right-to-left decoder
`decode_xml` recovers them exactly, for every api key string and every
payload list — the raw, unescaped api key sits left of a region in
which every angle bracket is rigid, so parsing from the right is
unambiguous. -/
theorem claim_c7_roundtrip (apikey : List Char) (payload : List (List Char × List Char)) :
    decode_xml (create_xml apikey payload) = some (apikey, payload) := by
  have hrev : (create_xml apikey payload).reverse
      = payloadCloseTag.reverse ++ ((payload.flatMap encodeEntry).reverse
          ++ (apiKeyCloseTag.reverse
              ++ (apikey.reverse ++ (xmlHeader ++ eventOpenTag).reverse))) := by
    rw [create_xml]
    simp [List.reverse_append, List.append_assoc]
  have hlen : payload.length ≤ ((payload.flatMap encodeEntry).reverse
      ++ (apiKeyCloseTag.reverse
          ++ (apikey.reverse ++ (xmlHeader ++ eventOpenTag).reverse))).length := by
    rw [List.length_append, List.length_reverse]
    have := length_le_flatMap_encode payload
    omega
  unfold decode_xml
  simp only [hrev, dropExact_append]
  rw [parseBackF_encode apikey payload [] _ hlen]
  simp

end IlertPlugin
